import Mathlib

/-! A verification development for `vec.hh`.

Shallow embedding of the fixed-size vector kernel `vec<d, f>` of `src/vec.hh`
and of the free functions of namespace `vecm`.

Modelling conventions.

* `vec<d, f>` holds the array `f v[d]`; here it is a structure with the single
  field `v : Fin d → f`.  The template parameter `d` is the type index `d`.
* A pack expansion over `std::make_index_sequence<d>` (`op(v[t], b.v[t]) ...`)
  enumerates `t = 0, 1, …, d-1`; it becomes a function of `t : Fin d`, or a
  loop over `List.range d` where the expansion is a comma fold with effects.
* An array access whose index is computed (`r[((t / z) % y) * x + …]`,
  `v.v[s]`) is unchecked in the source; an index outside the array is
  undefined behaviour.  Such accesses are `Option`-valued here (`vec.get?`,
  `vec.addAt`): `none` stands for the out-of-range access.
* The element type `f` is kept generic in the definitions; exact arithmetic is
  `Int` in the theorems, and the real numbers for `mag` and `norm`, whose
  library call `std::sqrt` is an argument of the embedded functions.
-/

namespace VecHH

/-- The struct `vec<d, f>` with its only data member `f v[d]`. -/
structure vec (d : Nat) (f : Type) where
  v : Fin d → f

namespace vec

variable {d : Nat} {f g h : Type}

/-- The constructor `vec(const f a)`: `for_each([&](f &b){ b = a; })`, every
element is set to `a`. -/
def broadcast (a : f) : vec d f :=
  ⟨fun _ => a⟩

/-- The constructor `vec(const f a, const A...b) : v{a, static_cast<f>(b)...}`
with `static_assert(sizeof...(b) == d-1)`: the argument list has exactly `d`
elements (the proof `hl` is the static assertion). -/
def ofList (l : List f) (hl : l.length = d) : vec d f :=
  ⟨fun t => l.get (t.cast hl.symm)⟩

/-- The elements `v[0], …, v[d-1]` in index order, used to display a vector. -/
def toList (a : vec d f) : List f :=
  List.ofFn a.v

/-- The read `operator[](i)` / `v[i]` with a computed index: no bounds check in
the source, `none` is the out-of-range access. -/
def get? (a : vec d f) (i : Nat) : Option f :=
  if hi : i < d then some (a.v ⟨i, hi⟩) else none

/-- The statement `r[i] += x` with a computed index: `none` is the
out-of-range access. -/
def addAt [Add f] (r : vec d f) (i : Nat) (x : f) : Option (vec d f) :=
  if hi : i < d then some ⟨Function.update r.v ⟨i, hi⟩ (r.v ⟨i, hi⟩ + x)⟩ else none

/-- The method `combine(b, op)`: `vec{op(v[t], b.v[t]) ...}` over
`t = 0 … d-1`. -/
def combine (a : vec d f) (b : vec d g) (op : f → g → h) : vec d h :=
  ⟨fun t => op (a.v t) (b.v t)⟩

/-- The method `map(op)`: `vec{op(v[t]) ...}` over `t = 0 … d-1`. -/
def map (a : vec d f) (op : f → h) : vec d h :=
  ⟨fun t => op (a.v t)⟩

/-- The local struct `r` of `reduce`: an element `a` and the functor `func`. -/
structure r (f : Type) where
  a : f
  func : f → f → f

/-- The member `r::operator+(const r &b)`: `r(func(a, b.a), func)`. -/
def r.add (x b : r f) : r f :=
  ⟨x.func x.a b.a, x.func⟩

/-- The fold expression `(pack + ...)` of `reduce`.  In C++ `(E + ...)` is the
unary right fold `E₀ + (E₁ + (… + E_{d-1}))`; the pack must be non-empty. -/
def foldPack : {d : Nat} → 0 < d → (Fin d → r f) → r f
  | 0, hd, _ => absurd hd (Nat.lt_irrefl 0)
  | 1, _, p => p 0
  | _ + 2, _, p => r.add (p 0) (foldPack (Nat.succ_pos _) (fun t => p t.succ))

/-- The method `reduce(op)`: `(r(v[t], op) + ...).a` over `t = 0 … d-1`.  The
fold expression needs a non-empty pack, which is the argument `hd : 0 < d`. -/
def reduce (a : vec d f) (hd : 0 < d) (op : f → f → f) : f :=
  (foldPack hd (fun t => r.mk (a.v t) op)).a

/-- The operator `operator+`: `combine(b, std::plus<f>())`. -/
def add [Add f] (a b : vec d f) : vec d f :=
  a.combine b (fun p q => p + q)

/-- The operator `operator-` (binary): `combine(b, std::minus<f>())`. -/
def sub [Sub f] (a b : vec d f) : vec d f :=
  a.combine b (fun p q => p - q)

/-- The operator `operator*`: `combine(b, std::multiplies<f>())`. -/
def mul [Mul f] (a b : vec d f) : vec d f :=
  a.combine b (fun p q => p * q)

/-- The operator `operator/`: `combine(b, std::divides<f>())`. -/
def div [Div f] (a b : vec d f) : vec d f :=
  a.combine b (fun p q => p / q)

/-- The operator `operator-` (unary): `map(std::negate<f>())`. -/
def neg [Neg f] (a : vec d f) : vec d f :=
  a.map (fun p => -p)

instance [Add f] : Add (vec d f) := ⟨add⟩
instance [Sub f] : Sub (vec d f) := ⟨sub⟩
instance [Mul f] : Mul (vec d f) := ⟨mul⟩
instance [Div f] : Div (vec d f) := ⟨div⟩
instance [Neg f] : Neg (vec d f) := ⟨neg⟩

/-- The operator `operator==`:
`combine(b, std::equal_to<f>()).reduce(std::logical_and<bool>())`. -/
def eq [DecidableEq f] (a b : vec d f) (hd : 0 < d) : Bool :=
  (a.combine b (fun p q => decide (p = q))).reduce hd (fun p q => p && q)

/-- The operator `operator!=`:
`combine(b, std::not_equal_to<f>()).reduce(std::logical_or<bool>())`. -/
def ne [DecidableEq f] (a b : vec d f) (hd : 0 < d) : Bool :=
  (a.combine b (fun p q => decide (p ≠ q))).reduce hd (fun p q => p || q)

end vec

namespace vecm

open vec

variable {d e : Nat} {f : Type}

/-- The function `vecm::sw<s...>(v)`: `vec<sizeof...(s), f>(v.v[s] ...)`.  The
indices `s` are arbitrary `std::size_t` template arguments and `v.v[s]` is
unchecked, so an index `≥ d` is the out-of-range access `none`.  (With a single
index the call selects the constructor `vec(const f a)` of `vec<1, f>`, which
builds the same one-element vector.) -/
def sw (s : List Nat) (v : vec d f) : Option (vec s.length f) :=
  if hs : ∀ i ∈ s, i < d then
    some (vec.ofList (s.attach.map (fun i => v.v ⟨i.1, hs i.1 i.2⟩)) (by simp))
  else none

/-- The function `vecm::mul_mat_vec(v, m)`: `vec<e / d, f> r(0)` and then, for
`t = 0 … e-1` in order, `r.v[t / d] += v.v[t % d] * m.v[t]`. -/
def mul_mat_vec [Zero f] [Add f] [Mul f] (v : vec d f) (m : vec e f) :
    Option (vec (e / d) f) :=
  (List.range e).foldlM (fun r t => do
    let p ← v.get? (t % d)
    let q ← m.get? t
    r.addAt (t / d) (p * q)) (vec.broadcast 0)

/-- The function `vecm::mul_mat_mat<y, x, z>(a, b)`: `vec<x * y, f> r(0)` and
then, for `t = 0 … x*y*z-1` in order,
`r[((t / z) % y) * x + (t / (y*z))] +=
   a[(t % z) + ((t/z) % y) * z] * b[((t % z) * x) + t / (y*z)]`. -/
def mul_mat_mat [Zero f] [Add f] [Mul f] (y x z : Nat)
    (a : vec (z * y) f) (b : vec (x * z) f) : Option (vec (x * y) f) :=
  (List.range (x * y * z)).foldlM (fun r t => do
    let p ← a.get? ((t % z) + ((t / z) % y) * z)
    let q ← b.get? (((t % z) * x) + t / (y * z))
    r.addAt (((t / z) % y) * x + (t / (y * z))) (p * q)) (vec.broadcast 0)

/-- The function `vecm::dot(a, b)`: `(a * b).reduce(std::plus<f>())`. -/
def dot [Add f] [Mul f] (a b : vec d f) (hd : 0 < d) : f :=
  (a * b).reduce hd (fun p q => p + q)

/-- The function `vecm::cross(a, b)`:
`sw<1,2,0>(a) * sw<2,0,1>(b) - sw<2,0,1>(a) * sw<1,2,0>(b)`. -/
def cross [Mul f] [Sub f] (a b : vec 3 f) : Option (vec 3 f) := do
  let a120 : vec 3 f ← sw [1, 2, 0] a
  let b201 : vec 3 f ← sw [2, 0, 1] b
  let a201 : vec 3 f ← sw [2, 0, 1] a
  let b120 : vec 3 f ← sw [1, 2, 0] b
  pure (a120 * b201 - a201 * b120)

/-- The function `vecm::mag2(v)`: `(v * v).reduce(std::plus<f>())`. -/
def mag2 [Add f] [Mul f] (v : vec d f) (hd : 0 < d) : f :=
  (v * v).reduce hd (fun p q => p + q)

/-- The matrix `I_n` used to test `mul_mat_mat<n,n,n>`: an `n × n` row-major
matrix with `1` at the indices `r*n + r` (`r < n`) and `0` elsewhere.  It is an
input of the identity check, not a function of `vec.hh`. -/
def identity (n : Nat) : vec (n * n) Int :=
  ⟨fun t => if ∃ r, r < n ∧ t.val = r * n + r then 1 else 0⟩

end vecm

end VecHH

/-! ## Further operations of `vec.hh`

Compound assignment mutates the receiver through references, so it is modelled
on a store of `vec<d, f>` objects; the remaining functions are pure. -/

namespace VecHH

namespace vec

variable {d e : Nat} {f : Type}

/-- A vector seen at an equal dimension: `vec<d, f>` and `vec<e, f>` are the same
C++ type when `d == e` (as `vec<s*s, f>` and `vec<d, f>` in `mul_mat_mat_sqr`). -/
def cast (hde : d = e) (a : vec d f) : vec e f :=
  ⟨fun t => a.v (t.cast hde.symm)⟩

/-- A program state holding `vec<d, f>` objects under their names (natural
numbers).  The references `*this` and `const vec<d, f> &b` of the compound
assignments are object names; two references may name the same object. -/
abbrev Store (d : Nat) (f : Type) : Type :=
  Nat → vec d f

/-- The method `inplace_combine(b, op)` called on the object `self`:
`(op(v[t], b[t]), ...)` for `t = 0 … d-1` in order.  The mutator
`op(f &a, const f &b)` is given by the new value it leaves in `a`; every
iteration reads `v[t]` and `b[t]` from the current state. -/
def inplace_combine (σ : Store d f) (self b : Nat) (op : f → f → f) : Store d f :=
  (List.finRange d).foldl
    (fun st t =>
      Function.update st self ⟨Function.update (st self).v t (op ((st self).v t) ((st b).v t))⟩)
    σ

/-- The operator `operator+=`:
`inplace_combine(b, [](f &a, const f &b){ a += b; }); return *this;`.  The
result is the new state and the returned reference. -/
def addAssign [Add f] (σ : Store d f) (self b : Nat) : Store d f × Nat :=
  (inplace_combine σ self b (fun p q => p + q), self)

/-- The operator `operator-=`:
`inplace_combine(b, [](f &a, const f &b){ a -= b; }); return *this;`. -/
def subAssign [Sub f] (σ : Store d f) (self b : Nat) : Store d f × Nat :=
  (inplace_combine σ self b (fun p q => p - q), self)

/-- The operator `operator*=`:
`inplace_combine(b, [](f &a, const f &b){ a *= b; }); return *this;`. -/
def mulAssign [Mul f] (σ : Store d f) (self b : Nat) : Store d f × Nat :=
  (inplace_combine σ self b (fun p q => p * q), self)

/-- The operator `operator/=`:
`inplace_combine(b, [](f &a, const f &b){ a /= b; }); return *this;`. -/
def divAssign [Div f] (σ : Store d f) (self b : Nat) : Store d f × Nat :=
  (inplace_combine σ self b (fun p q => p / q), self)

end vec

namespace vecm

open vec

variable {d e : Nat} {f : Type}

/-- The function `vecm::max(a, b)` on two vectors:
`a.combine(b, [](const f &a, const f &b){ return std::max(a, b); })`, where
`std::max(a, b)` is `(a < b) ? b : a`.

The overloads `max(a, f)` and `max(f, b)` stand before this one in the header
and forward to it (`max(a, vec<d, f>(b))`, `max(vec<d, f>(a), b)`).  Where they
stand no `max` on two vectors is declared yet, and `vec` is declared outside
`vecm`, so the forwarded call finds no overload taking two vectors; these two
overloads have no embedding. -/
def max [LT f] [DecidableRel (fun p q : f => p < q)] (a b : vec d f) : vec d f :=
  a.combine b (fun p q => if p < q then q else p)

/-- The function `vecm::min(a, b)` on two vectors:
`a.combine(b, [](const f &a, const f &b){ return std::min(a, b); })`, where
`std::min(a, b)` is `(b < a) ? b : a`.  The overloads `min(a, f)` and
`min(f, b)` forward to it in the same way as those of `max`, and have no
embedding for the same reason. -/
def min [LT f] [DecidableRel (fun p q : f => p < q)] (a b : vec d f) : vec d f :=
  a.combine b (fun p q => if q < p then q else p)

/-- The constant `s` of `mul_mat_mat_sqr`: `constexpr std::size_t s = std::sqrt(d);`,
the square root of `d` truncated to an integer, that is the greatest `k` with
`k * k ≤ d`.  (`std::sqrt` works in `double`; on every `d` that passes the
`static_assert` below, a perfect square, the `double` root is the exact one.) -/
def sqrt_size (d : Nat) : Nat :=
  Nat.findGreatest (fun k => k * k ≤ d) d

/-- The function `vecm::mul_mat_mat_sqr(a, b)`: with `s = sqrt_size d`,
`static_assert(s*s == d, "not a square matrix")` and
`return mul_mat_mat<s, s, s, f>(a, b)`.  The static assertion is the argument
`hs`: without it the call does not build. -/
def mul_mat_mat_sqr [Zero f] [Add f] [Mul f] (a b : vec d f)
    (hs : sqrt_size d * sqrt_size d = d) : Option (vec d f) :=
  (mul_mat_mat (sqrt_size d) (sqrt_size d) (sqrt_size d) (a.cast hs.symm) (b.cast hs.symm)).map
    (fun out => out.cast hs)

end vecm

end VecHH

/-! ## Magnitude and normalisation -/

namespace VecHH

namespace vecm

open vec

variable {d : Nat} {f : Type}

/-- The function `vecm::mag(v)`: `std::sqrt((v * v).reduce(std::plus<f>()))`.
The library function `std::sqrt` on the element type is the argument `sqrt`. -/
def mag [Add f] [Mul f] (sqrt : f → f) (v : vec d f) (hd : 0 < d) : f :=
  sqrt ((v * v).reduce hd (fun p q => p + q))

/-- The function `vecm::norm(v)`:
`f il = 1.0f / std::sqrt((v * v).reduce(std::plus<f>())); return v * il;`.
In `v * il` the scalar `il` becomes a vector through the constructor
`vec(const f a)`, so the product is the elementwise one with the broadcast of
`il`. -/
def norm [Add f] [Mul f] [One f] [Div f] (sqrt : f → f) (v : vec d f) (hd : 0 < d) :
    vec d f :=
  v * (vec.broadcast (1 / sqrt ((v * v).reduce hd (fun p q => p + q))) : vec d f)

end vecm

end VecHH

/-! ## Theorems -/

namespace VecHH

namespace vec

variable {d : Nat} {f g h : Type}

/-- Two vectors are equal when all their elements are. -/
theorem ext_v {a b : vec d f} (hv : ∀ t, a.v t = b.v t) : a = b := by
  cases a; cases b; congr; exact funext hv

/-- On a one-element vector `reduce` returns the element, `op` is not called. -/
theorem reduce_one (a : vec 1 f) (hd : 0 < 1) (op : f → f → f) :
    a.reduce hd op = a.v 0 := rfl

/-- On `n + 2` elements `reduce` applies `op` to the first element and to the
reduction of the remaining `n + 1` elements. -/
theorem reduce_succ {n : Nat} (a : vec (n + 2) f) (hd : 0 < n + 2) (op : f → f → f) :
    a.reduce hd op
      = op (a.v 0) (reduce (vec.mk (fun t : Fin (n + 1) => a.v t.succ)) (Nat.succ_pos n) op) :=
  rfl

/-- The reduction of `n + 1` elements is `List.foldr` over the first `n` elements,
started from the last element. -/
theorem reduce_eq_foldr_aux (op : f → f → f) :
    ∀ (n : Nat) (a : vec (n + 1) f),
      a.reduce (Nat.succ_pos n) op
        = List.foldr op (a.v (Fin.last n)) (List.ofFn (fun t : Fin n => a.v t.castSucc))
  | 0, a => by simp [reduce_one]
  | n + 1, a => by
      rw [reduce_succ, reduce_eq_foldr_aux op n, List.ofFn_succ]
      simp [Fin.succ_last, Fin.succ_castSucc]

/-- The method `reduce` is the right fold: with `l` the list of the elements in
index order, it is `List.foldr op` over `l` without its last element, started
from the last element. -/
theorem reduce_eq_foldr (a : vec d f) (hd : 0 < d) (op : f → f → f) :
    a.reduce hd op
      = List.foldr op (a.v ⟨d - 1, Nat.sub_lt hd Nat.one_pos⟩) (List.ofFn a.v).dropLast := by
  obtain ⟨n, rfl⟩ : ∃ n, d = n + 1 := ⟨d - 1, by omega⟩
  rw [reduce_eq_foldr_aux op n a, List.ofFn_succ' a.v, List.concat_eq_append,
    List.dropLast_concat]
  rfl

/-- Reducing with `+` gives the sum of the elements. -/
theorem reduce_add_eq_sum_aux [AddCommMonoid f] :
    ∀ (n : Nat) (a : vec (n + 1) f),
      a.reduce (Nat.succ_pos n) (fun p q => p + q) = ∑ t : Fin (n + 1), a.v t
  | 0, a => by simp [reduce_one]
  | n + 1, a => by
      rw [reduce_succ, reduce_add_eq_sum_aux n, Fin.sum_univ_succ (fun t => a.v t)]

/-- Reducing with `+` gives the sum of the elements, for every `d ≥ 1`. -/
theorem reduce_add_eq_sum [AddCommMonoid f] (a : vec d f) (hd : 0 < d) :
    a.reduce hd (fun p q => p + q) = ∑ t : Fin d, a.v t := by
  obtain ⟨n, rfl⟩ : ∃ n, d = n + 1 := ⟨d - 1, by omega⟩
  exact reduce_add_eq_sum_aux n a

/-- Reducing booleans with `&&` is true exactly when every element is. -/
theorem reduce_and_aux :
    ∀ (n : Nat) (a : vec (n + 1) Bool),
      a.reduce (Nat.succ_pos n) (fun p q => p && q) = true ↔ ∀ t, a.v t = true
  | 0, a => by
      rw [reduce_one]
      constructor
      · intro h0 t
        rwa [Fin.fin_one_eq_zero t]
      · intro hall
        exact hall 0
  | n + 1, a => by
      rw [reduce_succ, Bool.and_eq_true, reduce_and_aux n]
      exact (Fin.forall_fin_succ (P := fun t => a.v t = true)).symm

/-- Reducing booleans with `||` is true exactly when some element is. -/
theorem reduce_or_aux :
    ∀ (n : Nat) (a : vec (n + 1) Bool),
      a.reduce (Nat.succ_pos n) (fun p q => p || q) = true ↔ ∃ t, a.v t = true
  | 0, a => by
      rw [reduce_one]
      constructor
      · intro h0
        exact ⟨0, h0⟩
      · rintro ⟨t, ht⟩
        rwa [Fin.fin_one_eq_zero t] at ht
  | n + 1, a => by
      rw [reduce_succ, Bool.or_eq_true, reduce_or_aux n]
      exact (Fin.exists_fin_succ (P := fun t => a.v t = true)).symm

/-- The operator `==` is true exactly when all elements agree. -/
theorem eq_iff [DecidableEq f] (a b : vec d f) (hd : 0 < d) :
    a.eq b hd = true ↔ ∀ t, a.v t = b.v t := by
  obtain ⟨n, rfl⟩ : ∃ n, d = n + 1 := ⟨d - 1, by omega⟩
  unfold vec.eq
  rw [reduce_and_aux]
  simp [combine]

/-- The operator `!=` is true exactly when some element differs. -/
theorem ne_iff [DecidableEq f] (a b : vec d f) (hd : 0 < d) :
    a.ne b hd = true ↔ ∃ t, a.v t ≠ b.v t := by
  obtain ⟨n, rfl⟩ : ∃ n, d = n + 1 := ⟨d - 1, by omega⟩
  unfold vec.ne
  rw [reduce_or_aux]
  simp [combine]

end vec

end VecHH

namespace VecHH

namespace vec

variable {d : Nat} {f : Type}

/-- An in-range read returns the element. -/
theorem get?_of_lt (a : vec d f) {i : Nat} (hi : i < d) : a.get? i = some (a.v ⟨i, hi⟩) := by
  simp [get?, hi]

/-- An in-range `r[i] += x` succeeds, adds `x` at index `i` and leaves the
other elements alone. -/
theorem addAt_of_lt [Add f] (r : vec d f) {i : Nat} (hi : i < d) (x : f) :
    ∃ r', r.addAt i x = some r' ∧
      ∀ j : Fin d, r'.v j = if j.val = i then r.v j + x else r.v j := by
  refine ⟨⟨Function.update r.v ⟨i, hi⟩ (r.v ⟨i, hi⟩ + x)⟩, by simp [addAt, hi], ?_⟩
  intro j
  by_cases hj : j.val = i
  · have hji : j = ⟨i, hi⟩ := Fin.ext hj
    subst hji
    simp
  · have hji : j ≠ ⟨i, hi⟩ := fun hc => hj (congrArg Fin.val hc)
    simp [Function.update_noteq hji, hj]

/-- A loop `for t = 0 … n-1: r[idx t] += val t` whose indices are all in range
runs to completion, and leaves in slot `j` the initial value plus the sum of the
`val t` over the `t < n` with `idx t = j`. -/
theorem foldlM_addAt [AddCommMonoid f] (step : vec d f → Nat → Option (vec d f))
    (idx : Nat → Nat) (val : Nat → f) :
    ∀ (n : Nat), (∀ t, t < n → ∀ r, step r t = r.addAt (idx t) (val t)) →
      (∀ t, t < n → idx t < d) → ∀ r0 : vec d f,
      ∃ r, (List.range n).foldlM step r0 = some r ∧
        ∀ j : Fin d, r.v j
          = r0.v j + ∑ t in (Finset.range n).filter (fun t => idx t = j.val), val t
  | 0, _, _, r0 => ⟨r0, by simp, by simp⟩
  | n + 1, hstep, hidx, r0 => by
      obtain ⟨r1, hr1, hv1⟩ := foldlM_addAt step idx val n
        (fun t ht => hstep t (Nat.lt_succ_of_lt ht)) (fun t ht => hidx t (Nat.lt_succ_of_lt ht)) r0
      obtain ⟨r2, hr2, hv2⟩ := addAt_of_lt r1 (hidx n (Nat.lt_succ_self n)) (val n)
      refine ⟨r2, ?_, ?_⟩
      · rw [List.range_succ, List.foldlM_append, hr1]
        simp [hstep n (Nat.lt_succ_self n) r1, hr2]
      · intro j
        rw [hv2 j, hv1 j, Finset.range_succ, Finset.filter_insert]
        by_cases hj : idx n = j.val
        · rw [if_pos hj.symm, if_pos hj, Finset.sum_insert (by simp), add_assoc,
            add_comm (val n)]
        · rw [if_neg (fun hc => hj hc.symm), if_neg hj]

end vec

namespace vecm

/-- Row-major index bound: `r*c' + c < c' * r'` for `r < r'`, `c < c'`. -/
theorem rowMajor_lt {r c rows cols : Nat} (hr : r < rows) (hc : c < cols) :
    r * cols + c < cols * rows := by
  calc r * cols + c < r * cols + cols := Nat.add_lt_add_left hc _
    _ = (r + 1) * cols := by ring
    _ ≤ rows * cols := Nat.mul_le_mul_right _ hr
    _ = cols * rows := Nat.mul_comm _ _

/-- A row-major index determines the row and the column. -/
theorem rowMajor_inj {r c r' c' cols : Nat} (hc : c < cols) (hc' : c' < cols)
    (h : r' * cols + c' = r * cols + c) : r' = r ∧ c' = c := by
  have hm : (r' * cols + c') % cols = (r * cols + c) % cols := by rw [h]
  rw [Nat.mul_comm r', Nat.mul_comm r, Nat.mul_add_mod, Nat.mul_add_mod, Nat.mod_eq_of_lt hc',
    Nat.mod_eq_of_lt hc] at hm
  subst hm
  have h2 : r' * cols = r * cols := Nat.add_right_cancel h
  exact ⟨Nat.eq_of_mul_eq_mul_right (Nat.lt_of_le_of_lt (Nat.zero_le _) hc) h2, rfl⟩

/-- The loop counter `t` of `mul_mat_mat` splits into `k = t % z`,
`row = (t / z) % y` and `col = t / (y * z)`. -/
theorem counter_split (y z t : Nat) :
    t = t % z + ((t / z) % y) * z + (t / (y * z)) * (y * z) := by
  have h1 := Nat.div_add_mod t z
  have h2 := Nat.div_add_mod (t / z) y
  have h3 : t / z / y = t / (y * z) := by rw [Nat.div_div_eq_div_mul, Nat.mul_comm]
  rw [h3] at h2
  calc t = z * (t / z) + t % z := h1.symm
    _ = z * (y * (t / (y * z)) + t / z % y) + t % z := by rw [h2]
    _ = t % z + ((t / z) % y) * z + (t / (y * z)) * (y * z) := by ring

/-- The three components of the counter `k + row * z + col * (y * z)`. -/
theorem counter_parts {y z k row : Nat} (col : Nat) (hk : k < z) (hrow : row < y) :
    (k + row * z + col * (y * z)) % z = k ∧
    ((k + row * z + col * (y * z)) / z) % y = row ∧
    (k + row * z + col * (y * z)) / (y * z) = col := by
  have hz : 0 < z := Nat.lt_of_le_of_lt (Nat.zero_le _) hk
  have hy : 0 < y := Nat.lt_of_le_of_lt (Nat.zero_le _) hrow
  have e1 : k + row * z + col * (y * z) = k + z * (row + col * y) := by ring
  have hdiv : (k + row * z + col * (y * z)) / z = row + col * y := by
    rw [e1, Nat.add_mul_div_left _ _ hz, Nat.div_eq_of_lt hk, Nat.zero_add]
  refine ⟨?_, ?_, ?_⟩
  · rw [e1, Nat.add_mul_mod_self_left, Nat.mod_eq_of_lt hk]
  · rw [hdiv, Nat.add_mul_mod_self_right, Nat.mod_eq_of_lt hrow]
  · have h3 : (k + row * z + col * (y * z)) / (y * z)
        = (k + row * z + col * (y * z)) / z / y := by
      rw [Nat.div_div_eq_div_mul, Nat.mul_comm z y]
    rw [h3, hdiv, Nat.add_mul_div_right _ _ hy, Nat.div_eq_of_lt hrow, Nat.zero_add]

end vecm

end VecHH

namespace VecHH

namespace vecm

open vec

variable {f : Type}

/-- The counter built from `k < z`, `row < y`, `col < x` is below `x * y * z`. -/
theorem counter_lt {x y z k row col : Nat} (hk : k < z) (hrow : row < y) (hcol : col < x) :
    k + row * z + col * (y * z) < x * y * z := by
  have h1 : row * z + k < z * y := rowMajor_lt hrow hk
  calc k + row * z + col * (y * z) < z * y + col * (y * z) := by omega
    _ = (col + 1) * (y * z) := by ring
    _ ≤ x * (y * z) := Nat.mul_le_mul_right _ hcol
    _ = x * y * z := by ring

/-- Loop counters below `x * y * z` have `k < z`, `row < y`, `col < x`. -/
theorem counter_bounds {x y z t : Nat} (ht : t < x * y * z) :
    t % z < z ∧ (t / z) % y < y ∧ t / (y * z) < x := by
  have hz : 0 < z := by
    rcases Nat.eq_zero_or_pos z with h0 | h0
    · subst h0; simp at ht
    · exact h0
  have hy : 0 < y := by
    rcases Nat.eq_zero_or_pos y with h0 | h0
    · subst h0; simp at ht
    · exact h0
  refine ⟨Nat.mod_lt _ hz, Nat.mod_lt _ hy, ?_⟩
  rw [Nat.div_lt_iff_lt_mul (Nat.mul_pos hy hz)]
  calc t < x * y * z := ht
    _ = x * (y * z) := by ring

/-- Regrouping the accumulation loop of `mul_mat_mat`: the terms that land in
slot `row * x + col` are exactly those with `k = 0 … z-1`. -/
theorem mul_mat_mat_sum [AddCommMonoid f] (y x z : Nat) (F : Nat → Nat → Nat → f)
    {row col : Nat} (hrow : row < y) (hcol : col < x) :
    ∑ t in (Finset.range (x * y * z)).filter
        (fun t => ((t / z) % y) * x + t / (y * z) = row * x + col),
      F (t % z) ((t / z) % y) (t / (y * z))
      = ∑ k in Finset.range z, F k row col := by
  refine Finset.sum_nbij' (fun t => t % z) (fun k => k + row * z + col * (y * z)) ?_ ?_ ?_ ?_ ?_
  · intro t ht
    rw [Finset.mem_filter, Finset.mem_range] at ht
    exact Finset.mem_range.mpr (counter_bounds ht.1).1
  · intro k hk
    rw [Finset.mem_range] at hk
    obtain ⟨-, h2, h3⟩ := counter_parts (y := y) col hk hrow
    rw [Finset.mem_filter, Finset.mem_range, h2, h3]
    exact ⟨counter_lt hk hrow hcol, rfl⟩
  · intro t ht
    rw [Finset.mem_filter, Finset.mem_range] at ht
    obtain ⟨h2, h3⟩ := rowMajor_inj hcol (counter_bounds ht.1).2.2 ht.2
    have hs := counter_split y z t
    rw [h2, h3] at hs
    exact hs.symm
  · intro k hk
    rw [Finset.mem_range] at hk
    exact (counter_parts (y := y) col hk hrow).1
  · intro t ht
    rw [Finset.mem_filter, Finset.mem_range] at ht
    obtain ⟨h2, h3⟩ := rowMajor_inj hcol (counter_bounds ht.1).2.2 ht.2
    rw [h2, h3]

/-- Functional description of `mul_mat_mat`: the loop never leaves its arrays,
and slot `row * x + col` of the result holds `Σ_k a[row*z+k] * b[k*x+col]`. -/
theorem mul_mat_mat_spec [Semiring f] (y x z : Nat) (a : vec (z * y) f) (b : vec (x * z) f) :
    ∃ out, mul_mat_mat y x z a b = some out ∧
      ∀ (row col : Nat) (hrow : row < y) (hcol : col < x),
        out.v ⟨row * x + col, rowMajor_lt hrow hcol⟩
          = ∑ k : Fin z, a.v ⟨row * z + k.val, rowMajor_lt hrow k.isLt⟩
              * b.v ⟨k.val * x + col, rowMajor_lt k.isLt hcol⟩ := by
  obtain ⟨out, hout, hv⟩ := foldlM_addAt (d := x * y)
    (fun r t => do
      let p ← a.get? ((t % z) + ((t / z) % y) * z)
      let q ← b.get? (((t % z) * x) + t / (y * z))
      r.addAt (((t / z) % y) * x + (t / (y * z))) (p * q))
    (fun t => ((t / z) % y) * x + t / (y * z))
    (fun t => (a.get? ((t / z) % y * z + t % z)).getD 0
      * (b.get? (t % z * x + t / (y * z))).getD 0)
    (x * y * z)
    (by
      intro t ht r
      obtain ⟨hk, hr, hc⟩ := counter_bounds ht
      have ha : t % z + (t / z) % y * z < z * y := by
        rw [Nat.add_comm]; exact rowMajor_lt hr hk
      have ha' : (t / z) % y * z + t % z < z * y := rowMajor_lt hr hk
      have hb : t % z * x + t / (y * z) < x * z := rowMajor_lt hk hc
      simp only [get?_of_lt a ha, get?_of_lt a ha', get?_of_lt b hb, Option.getD_some]
      simp [Nat.add_comm])
    (by
      intro t ht
      obtain ⟨-, hr, hc⟩ := counter_bounds ht
      exact rowMajor_lt hr hc)
    (vec.broadcast 0)
  refine ⟨out, hout, ?_⟩
  intro row col hrow hcol
  rw [hv]
  simp only [vec.broadcast, zero_add]
  rw [mul_mat_mat_sum y x z
    (fun k r c => (a.get? (r * z + k)).getD 0 * (b.get? (k * x + c)).getD 0) hrow hcol,
    ← Fin.sum_univ_eq_sum_range]
  refine Finset.sum_congr rfl ?_
  intro k _
  rw [get?_of_lt a (rowMajor_lt hrow k.isLt), get?_of_lt b (rowMajor_lt k.isLt hcol)]
  rfl

end vecm

end VecHH

namespace VecHH

namespace vecm

open vec

variable {f : Type}

/-- Index bound of `mul_mat_vec`: `row + col * d < e` for `row < d`, `col < e / d`. -/
theorem colBlock_lt {d e row col : Nat} (hrow : row < d) (hcol : col < e / d) :
    row + col * d < e := by
  calc row + col * d < d + col * d := Nat.add_lt_add_right hrow _
    _ = (col + 1) * d := by ring
    _ ≤ (e / d) * d := Nat.mul_le_mul_right _ hcol
    _ ≤ e := Nat.div_mul_le_self e d

/-- Regrouping the accumulation loop of `mul_mat_vec`: the terms that land in
slot `col` are exactly those with `t = row + col * d`, `row = 0 … d-1`. -/
theorem mul_mat_vec_sum [AddCommMonoid f] {d e col : Nat} (hcol : col < e / d)
    (F : Nat → Nat → f) :
    ∑ t in (Finset.range e).filter (fun t => t / d = col), F (t % d) t
      = ∑ row in Finset.range d, F row (row + col * d) := by
  have hd : 0 < d := by
    rcases Nat.eq_zero_or_pos d with h0 | h0
    · subst h0; simp at hcol
    · exact h0
  refine Finset.sum_nbij' (fun t => t % d) (fun row => row + col * d) ?_ ?_ ?_ ?_ ?_
  · intro t _
    exact Finset.mem_range.mpr (Nat.mod_lt _ hd)
  · intro row hrow
    rw [Finset.mem_range] at hrow
    rw [Finset.mem_filter, Finset.mem_range, Nat.add_mul_div_right _ _ hd,
      Nat.div_eq_of_lt hrow, Nat.zero_add]
    exact ⟨colBlock_lt hrow hcol, rfl⟩
  · intro t ht
    rw [Finset.mem_filter] at ht
    show t % d + col * d = t
    rw [← ht.2, Nat.mul_comm]
    exact Nat.mod_add_div t d
  · intro row hrow
    rw [Finset.mem_range] at hrow
    show (row + col * d) % d = row
    rw [Nat.add_mul_mod_self_right, Nat.mod_eq_of_lt hrow]
  · intro t ht
    rw [Finset.mem_filter] at ht
    have hsplit : t % d + col * d = t := by
      rw [← ht.2, Nat.mul_comm]
      exact Nat.mod_add_div t d
    show F (t % d) t = F (t % d) (t % d + col * d)
    rw [hsplit]

/-- Functional description of `mul_mat_vec` when `d` divides `e`: the loop never
leaves its arrays, and slot `col` of the result holds
`Σ_row v[row] * m[row + col*d]`. -/
theorem mul_mat_vec_spec [Semiring f] {d e : Nat} (hd : 0 < d) (hde : d ∣ e)
    (v : vec d f) (m : vec e f) :
    ∃ out, mul_mat_vec v m = some out ∧
      ∀ (col : Nat) (hcol : col < e / d),
        out.v ⟨col, hcol⟩
          = ∑ row : Fin d, v.v row * m.v ⟨row.val + col * d, colBlock_lt row.isLt hcol⟩ := by
  obtain ⟨out, hout, hv⟩ := foldlM_addAt (d := e / d)
    (fun r t => do
      let p ← v.get? (t % d)
      let q ← m.get? t
      r.addAt (t / d) (p * q))
    (fun t => t / d)
    (fun t => (v.get? (t % d)).getD 0 * (m.get? t).getD 0)
    e
    (by
      intro t ht r
      simp [get?_of_lt v (Nat.mod_lt t hd), get?_of_lt m ht])
    (by
      intro t ht
      exact Nat.div_lt_div_of_lt_of_dvd hde ht)
    (vec.broadcast 0)
  refine ⟨out, hout, ?_⟩
  intro col hcol
  rw [hv]
  simp only [vec.broadcast, zero_add]
  rw [mul_mat_vec_sum hcol (fun row t => (v.get? row).getD 0 * (m.get? t).getD 0),
    ← Fin.sum_univ_eq_sum_range]
  refine Finset.sum_congr rfl ?_
  intro row _
  rw [get?_of_lt v row.isLt, get?_of_lt m (colBlock_lt row.isLt hcol)]
  rfl

end vecm

end VecHH

namespace VecHH

namespace vec

variable {d : Nat} {f : Type}

/-- Elements of a product. -/
theorem mul_v [Mul f] (a b : vec d f) (t : Fin d) : (a * b).v t = a.v t * b.v t := rfl

/-- Elements of a difference. -/
theorem sub_v [Sub f] (a b : vec d f) (t : Fin d) : (a - b).v t = a.v t - b.v t := rfl

/-- Elements of a negation. -/
theorem neg_v [Neg f] (a : vec d f) (t : Fin d) : (-a).v t = -a.v t := rfl

/-- Two row-major matrices are equal when they agree at every `row * x + col`. -/
theorem ext_rowMajor {x y : Nat} {p q : vec (x * y) f}
    (hpq : ∀ (row col : Nat) (hrow : row < y) (hcol : col < x),
      p.v ⟨row * x + col, vecm.rowMajor_lt hrow hcol⟩
        = q.v ⟨row * x + col, vecm.rowMajor_lt hrow hcol⟩) : p = q := by
  apply ext_v
  intro t
  have hx : 0 < x := by
    rcases Nat.eq_zero_or_pos x with h0 | h0
    · subst h0; exact absurd t.isLt (by simp)
    · exact h0
  have hrow : t.val / x < y := Nat.div_lt_of_lt_mul t.isLt
  have hval : t.val / x * x + t.val % x = t.val := by
    rw [Nat.mul_comm]; exact Nat.div_add_mod t.val x
  have ht : (⟨t.val / x * x + t.val % x, vecm.rowMajor_lt hrow (Nat.mod_lt _ hx)⟩ : Fin (x * y))
      = t := Fin.ext hval
  have e := hpq (t.val / x) (t.val % x) hrow (Nat.mod_lt _ hx)
  rw [ht] at e
  exact e

end vec

namespace vecm

open vec

variable {d : Nat} {f : Type}

/-- The function `sw` with in-range indices returns the selected elements. -/
theorem sw_spec (s : List Nat) (v : vec d f) (hs : ∀ i ∈ s, i < d) :
    ∃ w, sw s v = some w ∧
      ∀ j : Fin s.length, w.v j = v.v ⟨s.get j, hs _ (List.get_mem s j.1 j.2)⟩ := by
  refine ⟨_, dif_pos hs, ?_⟩
  intro j
  simp [vec.ofList]

/-- The function `cross` never leaves its arrays and is the determinant
expansion. -/
theorem cross_spec [Mul f] [Sub f] (a b : vec 3 f) :
    cross a b = some (vec.ofList
      [a.v 1 * b.v 2 - a.v 2 * b.v 1, a.v 2 * b.v 0 - a.v 0 * b.v 2,
        a.v 0 * b.v 1 - a.v 1 * b.v 0] rfl) := by
  simp only [cross, sw]
  simp
  apply ext_v
  intro t
  fin_cases t <;> rfl

/-- The entry of `I_n` at `k * n + col` is `1` on the diagonal and `0` off it. -/
theorem identity_v {n k col : Nat} (hk : k < n) (hcol : col < n) :
    (identity n).v ⟨k * n + col, rowMajor_lt hk hcol⟩ = if k = col then 1 else 0 := by
  unfold identity
  by_cases hkc : k = col
  · subst hkc
    simp only [if_true]
    exact if_pos ⟨k, hk, rfl⟩
  · rw [if_neg hkc]
    apply if_neg
    rintro ⟨r, hr, hrr⟩
    have h2 := rowMajor_inj hr hcol hrr
    exact hkc (h2.1.trans h2.2.symm)

/-- Multiplying by `I_n` on the right returns the matrix. -/
theorem mul_mat_mat_identity_right (n : Nat) (a : vec (n * n) Int) :
    mul_mat_mat n n n a (identity n) = some a := by
  obtain ⟨out, hout, hv⟩ := mul_mat_mat_spec n n n a (identity n)
  rw [hout]
  congr 1
  apply ext_rowMajor
  intro row col hrow hcol
  rw [hv row col hrow hcol]
  have hterm : ∀ k : Fin n,
      a.v ⟨row * n + k.val, rowMajor_lt hrow k.isLt⟩
          * (identity n).v ⟨k.val * n + col, rowMajor_lt k.isLt hcol⟩
        = if k = (⟨col, hcol⟩ : Fin n) then a.v ⟨row * n + k.val, rowMajor_lt hrow k.isLt⟩
          else 0 := by
    intro k
    rw [identity_v k.isLt hcol]
    by_cases hkc : k.val = col
    · have hk : k = ⟨col, hcol⟩ := Fin.ext hkc
      rw [if_pos hkc, if_pos hk, mul_one]
    · have hk : k ≠ ⟨col, hcol⟩ := fun hc => hkc (congrArg Fin.val hc)
      rw [if_neg hkc, if_neg hk, mul_zero]
  rw [Finset.sum_congr rfl (fun k _ => hterm k), Finset.sum_ite_eq' Finset.univ]
  simp

/-- Multiplying by `I_n` on the left returns the matrix. -/
theorem mul_mat_mat_identity_left (n : Nat) (a : vec (n * n) Int) :
    mul_mat_mat n n n (identity n) a = some a := by
  obtain ⟨out, hout, hv⟩ := mul_mat_mat_spec n n n (identity n) a
  rw [hout]
  congr 1
  apply ext_rowMajor
  intro row col hrow hcol
  rw [hv row col hrow hcol]
  have hterm : ∀ k : Fin n,
      (identity n).v ⟨row * n + k.val, rowMajor_lt hrow k.isLt⟩
          * a.v ⟨k.val * n + col, rowMajor_lt k.isLt hcol⟩
        = if k = (⟨row, hrow⟩ : Fin n) then a.v ⟨k.val * n + col, rowMajor_lt k.isLt hcol⟩
          else 0 := by
    intro k
    rw [identity_v hrow k.isLt]
    by_cases hkc : row = k.val
    · have hk : k = ⟨row, hrow⟩ := Fin.ext hkc.symm
      rw [if_pos hkc, if_pos hk, one_mul]
    · have hk : k ≠ ⟨row, hrow⟩ := fun hc => hkc (congrArg Fin.val hc).symm
      rw [if_neg hkc, if_neg hk, zero_mul]
  rw [Finset.sum_congr rfl (fun k _ => hterm k), Finset.sum_ite_eq' Finset.univ]
  simp

/-- The matrix `I_2` is `(1,0,0,1)`. -/
theorem identity_two : identity 2 = vec.ofList [1, 0, 0, 1] rfl := by
  apply ext_v
  intro t
  fin_cases t <;> decide

end vecm

end VecHH

/-! ## The claims -/

namespace VecHH

open vec vecm

/-- C1, as stated, fails: on `(8,2,3)` with subtraction `reduce` returns
`8 - (2 - 3) = 9`, which is neither `3` nor the left fold `(8 - 2) - 3`. -/
theorem C1_reduce_not_left_fold :
    (vec.ofList [8, 2, 3] rfl : vec 3 Int).reduce (by decide) (fun p q => p - q) = 9 ∧
    (vec.ofList [8, 2, 3] rfl : vec 3 Int).reduce (by decide) (fun p q => p - q) ≠ 3 ∧
    (vec.ofList [8, 2, 3] rfl : vec 3 Int).reduce (by decide) (fun p q => p - q)
      ≠ List.foldl (fun p q => p - q) 8 [2, 3] := by
  decide

/-- C1, amended: for every `d ≥ 1`, every vector `v` of length `d` and every
binary operation `op`, `reduce(op)` is the right-associative fold in index order
`op(v[0], op(v[1], … op(v[d-2], v[d-1])))`; in particular
`reduce((8,2,3), -) = 9` and `reduce((1,2,3,4), +) = 10`. -/
theorem C1_reduce_right_fold {d : Nat} {f : Type} (hd : 0 < d) (v : vec d f)
    (op : f → f → f) :
    v.reduce hd op
      = List.foldr op (v.v ⟨d - 1, Nat.sub_lt hd Nat.one_pos⟩) v.toList.dropLast ∧
    (vec.ofList [8, 2, 3] rfl : vec 3 Int).reduce (by decide) (fun p q => p - q) = 9 ∧
    (vec.ofList [1, 2, 3, 4] rfl : vec 4 Int).reduce (by decide) (fun p q => p + q) = 10 :=
  ⟨reduce_eq_foldr v hd op, by decide, by decide⟩

/-- C1, amended, at `(8,2,3)` with subtraction: the right fold `8 - (2 - 3)`. -/
theorem C1_reduce_right_fold_witness :
    0 < 3 ∧
    (vec.ofList [8, 2, 3] rfl : vec 3 Int).reduce (by decide) (fun p q => p - q)
      = List.foldr (fun p q => p - q) 3 [8, 2] :=
  ⟨by decide,
    (C1_reduce_right_fold (by decide) (vec.ofList [8, 2, 3] rfl : vec 3 Int)
      (fun p q => p - q)).1⟩

/-- C2: for all shapes `y, x, z` and integer matrices `a` (`y × z`) and `b`
(`z × x`), `mul_mat_mat<y,x,z>(a,b)` returns a result whose entry `row*x + col`
is `Σ_{k<z} a[row*z+k] * b[k*x+col]`; and
`mul_mat_mat<2,2,2>((1,2,3,4),(5,6,7,8)) = (19,22,43,50)`. -/
theorem C2_mul_mat_mat_entries (y x z : Nat) (a : vec (z * y) Int) (b : vec (x * z) Int) :
    (∃ out, mul_mat_mat y x z a b = some out ∧
      ∀ (row col : Nat) (hrow : row < y) (hcol : col < x),
        out.v ⟨row * x + col, rowMajor_lt hrow hcol⟩
          = ∑ k : Fin z, a.v ⟨row * z + k.val, rowMajor_lt hrow k.isLt⟩
              * b.v ⟨k.val * x + col, rowMajor_lt k.isLt hcol⟩) ∧
    (mul_mat_mat 2 2 2 (vec.ofList [1, 2, 3, 4] rfl : vec (2 * 2) Int)
        (vec.ofList [5, 6, 7, 8] rfl)).map vec.toList = some [19, 22, 43, 50] :=
  ⟨mul_mat_mat_spec y x z a b, by decide⟩

/-- C2 at `a = (1,2,3,4)`, `b = (5,6,7,8)`, row 1 and column 0: the entry is
`3*5 + 4*7 = 43`. -/
theorem C2_mul_mat_mat_entries_witness :
    ∃ out, mul_mat_mat 2 2 2 (vec.ofList [1, 2, 3, 4] rfl : vec (2 * 2) Int)
        (vec.ofList [5, 6, 7, 8] rfl) = some out ∧
      out.v ⟨1 * 2 + 0, by decide⟩ = 3 * 5 + 4 * 7 := by
  obtain ⟨out, hout, hv⟩ := (C2_mul_mat_mat_entries 2 2 2
    (vec.ofList [1, 2, 3, 4] rfl : vec (2 * 2) Int) (vec.ofList [5, 6, 7, 8] rfl)).1
  refine ⟨out, hout, ?_⟩
  rw [hv 1 0 (by decide) (by decide), Fin.sum_univ_two]
  rfl

/-- C3: for `d ≥ 1` and `e` a multiple of `d`, `mul_mat_vec(v, m)` on integer
vectors returns a result with `e / d` elements whose entry `col` is
`Σ_{row<d} v[row] * m[row + col*d]`. -/
theorem C3_mul_mat_vec_entries {d e : Nat} (hd : 0 < d) (hde : d ∣ e)
    (v : vec d Int) (m : vec e Int) :
    ∃ out, mul_mat_vec v m = some out ∧ out.toList.length = e / d ∧
      ∀ (col : Nat) (hcol : col < e / d),
        out.v ⟨col, hcol⟩
          = ∑ row : Fin d, v.v row * m.v ⟨row.val + col * d, colBlock_lt row.isLt hcol⟩ := by
  obtain ⟨out, hout, hv⟩ := mul_mat_vec_spec hd hde v m
  exact ⟨out, hout, by simp [vec.toList], hv⟩

/-- C3 at `d = 2`, `e = 6`, `v = (1,2)`, `m = (1,2,3,4,5,6)`. -/
theorem C3_mul_mat_vec_entries_witness :
    0 < 2 ∧ 2 ∣ 6 ∧
    ∃ out, mul_mat_vec (vec.ofList [1, 2] rfl : vec 2 Int)
        (vec.ofList [1, 2, 3, 4, 5, 6] rfl : vec 6 Int) = some out ∧
      out.toList.length = 6 / 2 ∧
      ∀ (col : Nat) (hcol : col < 6 / 2),
        out.v ⟨col, hcol⟩
          = ∑ row : Fin 2, (vec.ofList [1, 2] rfl : vec 2 Int).v row
              * (vec.ofList [1, 2, 3, 4, 5, 6] rfl : vec 6 Int).v
                  ⟨row.val + col * 2, colBlock_lt row.isLt hcol⟩ :=
  ⟨by decide, by decide,
    C3_mul_mat_vec_entries (by decide) (by decide) (vec.ofList [1, 2] rfl)
      (vec.ofList [1, 2, 3, 4, 5, 6] rfl)⟩

/-- C4: for `d ≥ 1` and vectors `v`, `w` over a type with decidable equality,
`v == w` is true exactly when `v[i] = w[i]` for every `i < d`; and `v == v`. -/
theorem C4_eq_iff_all_equal {d : Nat} {f : Type} [DecidableEq f] (hd : 0 < d)
    (v w : vec d f) :
    (v.eq w hd = true ↔ ∀ i : Fin d, v.v i = w.v i) ∧ v.eq v hd = true :=
  ⟨eq_iff v w hd, (eq_iff v v hd).mpr (fun _ => rfl)⟩

/-- C4 at `v = (1,2,3)`, `w = (1,2,4)`. -/
theorem C4_eq_iff_all_equal_witness :
    0 < 3 ∧
    (((vec.ofList [1, 2, 3] rfl : vec 3 Int).eq (vec.ofList [1, 2, 4] rfl) (by decide) = true ↔
      ∀ i : Fin 3, (vec.ofList [1, 2, 3] rfl : vec 3 Int).v i
        = (vec.ofList [1, 2, 4] rfl : vec 3 Int).v i) ∧
    (vec.ofList [1, 2, 3] rfl : vec 3 Int).eq (vec.ofList [1, 2, 3] rfl) (by decide) = true) :=
  ⟨by decide,
    C4_eq_iff_all_equal (by decide) (vec.ofList [1, 2, 3] rfl) (vec.ofList [1, 2, 4] rfl)⟩

/-- C5: for `d ≥ 1` and all `v`, `w`: `v != w` is the negation of `v == w`,
exactly one of the two is true, and `v != w` is true exactly when some
component differs. -/
theorem C5_ne_is_not_eq {d : Nat} {f : Type} [DecidableEq f] (hd : 0 < d) (v w : vec d f) :
    v.ne w hd = !(v.eq w hd) ∧
    ((v.eq w hd = true ∧ v.ne w hd = false) ∨ (v.eq w hd = false ∧ v.ne w hd = true)) ∧
    (v.ne w hd = true ↔ ∃ i : Fin d, v.v i ≠ w.v i) := by
  have hne := ne_iff v w hd
  have heq := eq_iff v w hd
  have hnot : v.ne w hd = true ↔ ¬ (v.eq w hd = true) := by
    rw [hne, heq, not_forall]
  refine ⟨?_, ?_, hne⟩
  · cases h1 : v.eq w hd <;> cases h2 : v.ne w hd <;> simp_all
  · cases h1 : v.eq w hd <;> cases h2 : v.ne w hd <;> simp_all

/-- C5 at `v = (1,2,3)`, `w = (1,2,4)`. -/
theorem C5_ne_is_not_eq_witness :
    0 < 3 ∧
    (vec.ofList [1, 2, 3] rfl : vec 3 Int).ne (vec.ofList [1, 2, 4] rfl) (by decide)
      = !((vec.ofList [1, 2, 3] rfl : vec 3 Int).eq (vec.ofList [1, 2, 4] rfl) (by decide)) ∧
    (vec.ofList [1, 2, 3] rfl : vec 3 Int).ne (vec.ofList [1, 2, 4] rfl) (by decide) = true :=
  ⟨by decide,
    (C5_ne_is_not_eq (by decide) (vec.ofList [1, 2, 3] rfl : vec 3 Int)
      (vec.ofList [1, 2, 4] rfl)).1,
    by decide⟩

end VecHH

namespace VecHH

open vec vecm

/-- C6: for all integer 3-vectors `a`, `b`, `cross(a,b)` is the determinant
expansion `(a1*b2 - a2*b1, a2*b0 - a0*b2, a0*b1 - a1*b0)`; and
`cross((1,0,0),(0,1,0)) = (0,0,1)`. -/
theorem C6_cross_determinant (a b : vec 3 Int) :
    cross a b = some (vec.ofList
      [a.v 1 * b.v 2 - a.v 2 * b.v 1, a.v 2 * b.v 0 - a.v 0 * b.v 2,
        a.v 0 * b.v 1 - a.v 1 * b.v 0] rfl) ∧
    (cross (vec.ofList [1, 0, 0] rfl : vec 3 Int) (vec.ofList [0, 1, 0] rfl)).map vec.toList
      = some [0, 0, 1] :=
  ⟨cross_spec a b, by decide⟩

/-- C7: for all integer 3-vectors `a`, `b`, both cross products are computed
and `cross(a,b) == -cross(b,a)` with the unary `operator-` and `operator==`. -/
theorem C7_cross_antisymmetric (a b : vec 3 Int) :
    ∃ p q, cross a b = some p ∧ cross b a = some q ∧ p.eq (-q) (by decide) = true := by
  refine ⟨_, _, cross_spec a b, cross_spec b a, ?_⟩
  rw [eq_iff]
  intro t
  rw [neg_v]
  fin_cases t
  · show a.v 1 * b.v 2 - a.v 2 * b.v 1 = -(b.v 1 * a.v 2 - b.v 2 * a.v 1)
    ring
  · show a.v 2 * b.v 0 - a.v 0 * b.v 2 = -(b.v 2 * a.v 0 - b.v 0 * a.v 2)
    ring
  · show a.v 0 * b.v 1 - a.v 1 * b.v 0 = -(b.v 0 * a.v 1 - b.v 1 * a.v 0)
    ring

/-- C8: for `d ≥ 1` and integer vectors, `dot(a,b)` is `Σ_{i<d} a[i]*b[i]`,
`mag2(v)` is `dot(v,v)`, and `dot((1,0,0),(0,1,0)) = 0`. -/
theorem C8_dot_is_sum {d : Nat} (hd : 0 < d) (a b : vec d Int) :
    dot a b hd = ∑ i : Fin d, a.v i * b.v i ∧
    mag2 a hd = dot a a hd ∧
    dot (vec.ofList [1, 0, 0] rfl : vec 3 Int) (vec.ofList [0, 1, 0] rfl) (by decide) = 0 := by
  refine ⟨?_, rfl, by decide⟩
  unfold dot
  rw [reduce_add_eq_sum]
  rfl

/-- C8 at `a = (1,2,3)`, `b = (4,5,6)`. -/
theorem C8_dot_is_sum_witness :
    0 < 3 ∧
    dot (vec.ofList [1, 2, 3] rfl : vec 3 Int) (vec.ofList [4, 5, 6] rfl) (by decide)
      = ∑ i : Fin 3, (vec.ofList [1, 2, 3] rfl : vec 3 Int).v i
          * (vec.ofList [4, 5, 6] rfl : vec 3 Int).v i :=
  ⟨by decide,
    (C8_dot_is_sum (by decide) (vec.ofList [1, 2, 3] rfl : vec 3 Int)
      (vec.ofList [4, 5, 6] rfl)).1⟩

/-- C9: for every input dimension `d`, every index list `s` with all indices
below `d` and every `v` of length `d`, `sw<s...>(v)` returns a vector with as
many elements as there are indices, whose `j`-th element is `v[s_j]`; and
`sw<2,0,1>((10,20,30)) = (30,10,20)`, `sw<0,0>((7,9)) = (7,7)`. -/
theorem C9_sw_selects {d : Nat} {f : Type} (s : List Nat) (v : vec d f)
    (hs : ∀ i ∈ s, i < d) :
    (∃ w, sw s v = some w ∧ w.toList.length = s.length ∧
      ∀ j : Fin s.length, w.v j = v.v ⟨s.get j, hs _ (List.get_mem s j.1 j.2)⟩) ∧
    (sw [2, 0, 1] (vec.ofList [10, 20, 30] rfl : vec 3 Int)).map vec.toList
      = some [30, 10, 20] ∧
    (sw [0, 0] (vec.ofList [7, 9] rfl : vec 2 Int)).map vec.toList = some [7, 7] := by
  obtain ⟨w, hw, hv⟩ := sw_spec s v hs
  exact ⟨⟨w, hw, by simp [vec.toList], hv⟩, by decide, by decide⟩

/-- C9 at `s = (2,0,1)`, `v = (10,20,30)`. -/
theorem C9_sw_selects_witness :
    (∀ i ∈ [2, 0, 1], i < 3) ∧
    ∃ w, sw [2, 0, 1] (vec.ofList [10, 20, 30] rfl : vec 3 Int) = some w ∧
      w.toList.length = 3 :=
  ⟨by decide,
    (C9_sw_selects [2, 0, 1] (vec.ofList [10, 20, 30] rfl : vec 3 Int) (by decide)).1.imp
      (fun _ hw => ⟨hw.1, hw.2.1⟩)⟩

/-- C10: for every integer 2×2 matrix `m`, `mul_mat_mat<2,2,2>(m,(1,0,0,1))` and
`mul_mat_mat<2,2,2>((1,0,0,1),m)` return `m`; for every `n` and every integer
`n × n` matrix `a`, `mul_mat_mat<n,n,n>(a, I_n)` returns `a`, so that for
`n ≥ 1` the test `mul_mat_mat<n,n,n>(a, I_n) == a` is true. -/
theorem C10_mul_mat_mat_identity (n : Nat) (a : vec (n * n) Int) (m : vec (2 * 2) Int) :
    mul_mat_mat 2 2 2 m (vec.ofList [1, 0, 0, 1] rfl) = some m ∧
    mul_mat_mat 2 2 2 (vec.ofList [1, 0, 0, 1] rfl) m = some m ∧
    mul_mat_mat n n n a (identity n) = some a ∧
    ∀ hn : 0 < n * n,
      (mul_mat_mat n n n a (identity n)).map (fun out => out.eq a hn) = some true := by
  refine ⟨?_, ?_, mul_mat_mat_identity_right n a, ?_⟩
  · rw [← identity_two]
    exact mul_mat_mat_identity_right 2 m
  · rw [← identity_two]
    exact mul_mat_mat_identity_left 2 m
  · intro hn
    rw [mul_mat_mat_identity_right n a, Option.map_some']
    exact congrArg some ((eq_iff a a hn).mpr (fun _ => rfl))

/-- C10 at `n = 2`, `a = m = (1,2,3,4)`. -/
theorem C10_mul_mat_mat_identity_witness :
    0 < 2 * 2 ∧
    (mul_mat_mat 2 2 2 (vec.ofList [1, 2, 3, 4] rfl : vec (2 * 2) Int) (identity 2)).map
      (fun out => out.eq (vec.ofList [1, 2, 3, 4] rfl) (by decide)) = some true :=
  ⟨by decide,
    (C10_mul_mat_mat_identity 2 (vec.ofList [1, 2, 3, 4] rfl) (vec.ofList [1, 2, 3, 4] rfl)).2.2.2
      (by decide)⟩

end VecHH

/-! ## Lemmas for the compound assignments and the associative reduction -/

namespace VecHH

namespace vec

variable {d : Nat} {f : Type}

/-- An associative operation can be moved into the start value of a left fold. -/
theorem foldl_assoc_start (op : f → f → f)
    (hassoc : ∀ p q s, op (op p q) s = op p (op q s)) :
    ∀ (l : List f) (p q : f), op p (List.foldl op q l) = List.foldl op (op p q) l
  | [], _, _ => rfl
  | s :: l, p, q => by
      rw [List.foldl_cons, List.foldl_cons, foldl_assoc_start op hassoc l p (op q s), hassoc]

/-- With an associative operation the reduction of `n + 1` elements is the left
fold over the elements after the first, started from the first. -/
theorem reduce_eq_foldl_aux (op : f → f → f)
    (hassoc : ∀ p q s, op (op p q) s = op p (op q s)) :
    ∀ (n : Nat) (a : vec (n + 1) f),
      a.reduce (Nat.succ_pos n) op
        = List.foldl op (a.v 0) (List.ofFn (fun t : Fin n => a.v t.succ))
  | 0, a => by simp [reduce_one]
  | n + 1, a => by
      rw [reduce_succ, reduce_eq_foldl_aux op hassoc n, List.ofFn_succ, List.foldl_cons,
        foldl_assoc_start op hassoc]

/-- The loop of `inplace_combine` over a duplicate-free list of indices, with
the receiver and the argument distinct objects: other objects keep their value,
and the receiver is updated exactly at the visited indices. -/
theorem inplace_combine_loop (self b : Nat) (hne : self ≠ b) (op : f → f → f) :
    ∀ (l : List (Fin d)), l.Nodup → ∀ σ : Store d f,
      (∀ o, o ≠ self →
        (l.foldl (fun st t => Function.update st self
          ⟨Function.update (st self).v t (op ((st self).v t) ((st b).v t))⟩) σ) o = σ o) ∧
      ∀ t, ((l.foldl (fun st t => Function.update st self
          ⟨Function.update (st self).v t (op ((st self).v t) ((st b).v t))⟩) σ) self).v t
        = if t ∈ l then op ((σ self).v t) ((σ b).v t) else (σ self).v t
  | [], _, σ => ⟨fun _ _ => rfl, fun t => by simp⟩
  | t0 :: l, hl, σ => by
      rw [List.nodup_cons] at hl
      obtain ⟨hother, hself⟩ := inplace_combine_loop self b hne op l hl.2
        (Function.update σ self
          ⟨Function.update (σ self).v t0 (op ((σ self).v t0) ((σ b).v t0))⟩)
      refine ⟨?_, ?_⟩
      · intro o ho
        rw [List.foldl_cons, hother o ho, Function.update_noteq ho]
      · intro t
        rw [List.foldl_cons, hself t, Function.update_same,
          Function.update_noteq (Ne.symm hne)]
        by_cases ht : t = t0
        · subst ht
          simp [hl.1]
        · simp [ht, Function.update_noteq ht]

/-- The method `inplace_combine` with distinct receiver and argument leaves the
elementwise `combine` of the old values in the receiver and changes no other
object. -/
theorem inplace_combine_spec (σ : Store d f) (self b : Nat) (hne : self ≠ b)
    (op : f → f → f) :
    inplace_combine σ self b op self = (σ self).combine (σ b) op ∧
    ∀ o, o ≠ self → inplace_combine σ self b op o = σ o := by
  obtain ⟨hother, hself⟩ :=
    inplace_combine_loop self b hne op (List.finRange d) (List.nodup_finRange d) σ
  refine ⟨?_, hother⟩
  apply ext_v
  intro t
  have ht := hself t
  rw [if_pos (List.mem_finRange t)] at ht
  exact ht

end vec

end VecHH

/-! ## Lemmas for the square side and for the unchecked `mul_mat_vec` -/

namespace VecHH

namespace vecm

open vec

variable {f : Type}

/-- The truncated square root of a perfect square is its root. -/
theorem sqrt_size_mul_self (s : Nat) : sqrt_size (s * s) = s := by
  unfold sqrt_size
  rw [Nat.findGreatest_eq_iff]
  refine ⟨Nat.le_mul_self s, fun _ => Nat.le_refl _, ?_⟩
  intro n hsn _ hle
  exact absurd (Nat.mul_self_lt_mul_self hsn) (Nat.not_lt.mpr hle)

/-- The static assertion of `mul_mat_mat_sqr` holds exactly for perfect squares. -/
theorem sqrt_size_sq_iff (d : Nat) : sqrt_size d * sqrt_size d = d ↔ ∃ k, k * k = d := by
  constructor
  · intro hs
    exact ⟨sqrt_size d, hs⟩
  · rintro ⟨k, rfl⟩
    rw [sqrt_size_mul_self]

/-- When `d` does not divide `e`, the first counter of the incomplete last
block, `(e / d) * d`, is below `e` and is sent to slot `e / d`. -/
theorem overflow_counter {d e : Nat} (hd : 0 < d) (hde : ¬ d ∣ e) :
    (e / d) * d < e ∧ ((e / d) * d) / d = e / d := by
  refine ⟨?_, Nat.mul_div_cancel _ hd⟩
  have hmod : 0 < e % d := Nat.pos_of_ne_zero (fun h0 => hde (Nat.dvd_of_mod_eq_zero h0))
  have hsplit := Nat.div_add_mod e d
  rw [Nat.mul_comm] at hsplit
  omega

/-- When `d ≥ 1` does not divide `e`, `mul_mat_vec` runs into an out-of-range
write: at `t = (e / d) * d` it executes `r.v[e / d] += …` on a `vec<e / d, f>`. -/
theorem mul_mat_vec_none [Semiring f] {d e : Nat} (hd : 0 < d) (hde : ¬ d ∣ e)
    (v : vec d f) (m : vec e f) : mul_mat_vec v m = none := by
  obtain ⟨hlt, hdiv⟩ := overflow_counter hd hde
  obtain ⟨k, hk⟩ : ∃ k, e = (e / d) * d + (k + 1) := ⟨e - (e / d) * d - 1, by omega⟩
  obtain ⟨r, hr, -⟩ := foldlM_addAt (d := e / d)
    (fun r t => do
      let p ← v.get? (t % d)
      let q ← m.get? t
      r.addAt (t / d) (p * q))
    (fun t => t / d)
    (fun t => (v.get? (t % d)).getD 0 * (m.get? t).getD 0)
    ((e / d) * d)
    (by
      intro t ht r
      simp [get?_of_lt v (Nat.mod_lt t hd), get?_of_lt m (Nat.lt_trans ht hlt)])
    (by
      intro t ht
      exact Nat.div_lt_of_lt_mul (by rw [Nat.mul_comm]; exact ht))
    (vec.broadcast 0)
  unfold mul_mat_vec
  have hrange : List.range e
      = List.range ((e / d) * d)
          ++ ((e / d) * d) :: (List.range k).map (fun i => (e / d) * d + (i + 1)) := by
    conv_lhs => rw [hk]
    rw [List.range_add, List.range_succ_eq_map]
    simp [Function.comp_def]
  rw [hrange, List.foldlM_append, hr]
  simp [List.foldlM_cons, get?_of_lt v (Nat.mod_lt _ hd), get?_of_lt m hlt, vec.addAt, hdiv]

end vecm

end VecHH

/-! ## Lemmas relating the two matrix products -/

namespace VecHH

namespace vecm

open vec

variable {f : Type}

/-- Both groupings of a triple product `a · b · c` are computed by
`mul_mat_mat` and give the same matrix. -/
theorem mul_mat_mat_assoc [Semiring f] (y z w x : Nat)
    (a : vec (z * y) f) (b : vec (w * z) f) (c : vec (x * w) f) :
    ∃ ab bc out, mul_mat_mat y w z a b = some ab ∧ mul_mat_mat z x w b c = some bc ∧
      mul_mat_mat y x w ab c = some out ∧ mul_mat_mat y x z a bc = some out := by
  obtain ⟨ab, hab, vab⟩ := mul_mat_mat_spec y w z a b
  obtain ⟨bc, hbc, vbc⟩ := mul_mat_mat_spec z x w b c
  obtain ⟨l, hl, vl⟩ := mul_mat_mat_spec y x w ab c
  obtain ⟨r, hr, vr⟩ := mul_mat_mat_spec y x z a bc
  have hlr : l = r := by
    apply ext_rowMajor
    intro row col hrow hcol
    rw [vl row col hrow hcol, vr row col hrow hcol]
    have hleft : ∀ j : Fin w,
        ab.v ⟨row * w + j.val, rowMajor_lt hrow j.isLt⟩
            * c.v ⟨j.val * x + col, rowMajor_lt j.isLt hcol⟩
          = ∑ k : Fin z, a.v ⟨row * z + k.val, rowMajor_lt hrow k.isLt⟩
              * b.v ⟨k.val * w + j.val, rowMajor_lt k.isLt j.isLt⟩
              * c.v ⟨j.val * x + col, rowMajor_lt j.isLt hcol⟩ := by
      intro j
      rw [vab row j.val hrow j.isLt, Finset.sum_mul]
    have hright : ∀ k : Fin z,
        a.v ⟨row * z + k.val, rowMajor_lt hrow k.isLt⟩
            * bc.v ⟨k.val * x + col, rowMajor_lt k.isLt hcol⟩
          = ∑ j : Fin w, a.v ⟨row * z + k.val, rowMajor_lt hrow k.isLt⟩
              * b.v ⟨k.val * w + j.val, rowMajor_lt k.isLt j.isLt⟩
              * c.v ⟨j.val * x + col, rowMajor_lt j.isLt hcol⟩ := by
      intro k
      rw [vbc k.val col k.isLt hcol, Finset.mul_sum]
      exact Finset.sum_congr rfl (fun j _ => (mul_assoc _ _ _).symm)
    rw [Finset.sum_congr rfl (fun j _ => hleft j), Finset.sum_congr rfl (fun k _ => hright k)]
    exact Finset.sum_comm
  refine ⟨ab, bc, l, hab, hbc, hl, ?_⟩
  rw [hlr]
  exact hr

/-- On a matrix `m` of `c * d` elements `mul_mat_vec(v, m)` has the entries of
`mul_mat_mat<c, 1, d>(m, v)`: the product of `m`, read as `c` rows of `d`
columns, with the column vector `v`. -/
theorem mul_mat_vec_as_mul_mat_mat [CommSemiring f] {d c : Nat} (hd : 0 < d)
    (v : vec d f) (m : vec (c * d) f) :
    ∃ p q, mul_mat_vec v m = some p ∧
      mul_mat_mat c 1 d (m.cast (Nat.mul_comm c d)) (v.cast (Nat.one_mul d).symm) = some q ∧
      p.toList = q.toList := by
  obtain ⟨p, hp, vp⟩ := mul_mat_vec_spec hd (Dvd.intro_left c rfl) v m
  obtain ⟨q, hq, vq⟩ :=
    mul_mat_mat_spec c 1 d (m.cast (Nat.mul_comm c d)) (v.cast (Nat.one_mul d).symm)
  refine ⟨p, q, hp, hq, ?_⟩
  have hlen : c * d / d = c := Nat.mul_div_cancel c hd
  apply List.ext_getElem
  · simp [vec.toList, hlen]
  · intro i h1 h2
    have hi : i < c := by simpa [vec.toList, hlen] using h1
    have hi' : i < c * d / d := by rw [hlen]; exact hi
    have hq1 : (⟨i, by simpa [vec.toList] using h2⟩ : Fin (1 * c))
        = ⟨i * 1 + 0, rowMajor_lt hi Nat.one_pos⟩ := Fin.ext (by simp)
    simp only [vec.toList, List.getElem_ofFn]
    rw [hq1, vq i 0 hi Nat.one_pos, vp i hi']
    refine Finset.sum_congr rfl ?_
    intro k _
    simp only [vec.cast]
    rw [mul_comm]
    congr 2
    · exact Fin.ext (by simp [Nat.add_comm])
    · exact Fin.ext (by simp)

end vecm

end VecHH

/-! ## The vector forms of `max` and `min` -/

namespace VecHH

namespace vecm

open vec

/-- The vector forms `max(a, b)` and `min(a, b)` take the larger and the smaller
element at every index of a totally ordered element type, a broadcast scalar has
that scalar at every index, and `min((1,5,3),(4,2,3)) = (1,2,3)`,
`max((1,5,3),(4,2,3)) = (4,5,3)`. -/
theorem min_max_vector_form {d : Nat} {f : Type} [LinearOrder f] (a b : vec d f) (s : f)
    (i : Fin d) :
    (vecm.max a b).v i = Max.max (a.v i) (b.v i) ∧
    (vecm.min a b).v i = Min.min (a.v i) (b.v i) ∧
    (vec.broadcast s : vec d f).v i = s ∧
    (vecm.min (vec.ofList [1, 5, 3] rfl : vec 3 Int) (vec.ofList [4, 2, 3] rfl)).toList
      = [1, 2, 3] ∧
    (vecm.max (vec.ofList [1, 5, 3] rfl : vec 3 Int) (vec.ofList [4, 2, 3] rfl)).toList
      = [4, 5, 3] := by
  refine ⟨?_, ?_, rfl, by decide, by decide⟩
  · show (if a.v i < b.v i then b.v i else a.v i) = Max.max (a.v i) (b.v i)
    by_cases hlt : a.v i < b.v i
    · rw [if_pos hlt, max_eq_right hlt.le]
    · rw [if_neg hlt, max_eq_left (not_lt.mp hlt)]
  · show (if b.v i < a.v i then b.v i else a.v i) = Min.min (a.v i) (b.v i)
    by_cases hlt : b.v i < a.v i
    · rw [if_pos hlt, min_eq_right hlt.le]
    · rw [if_neg hlt, min_eq_left (not_lt.mp hlt)]

end vecm

end VecHH

/-! ## The claims, continued -/

namespace VecHH

open vec vecm

/-- C11: for all vectors `a`, `b` of length `d` and every `i < d`, the operators
`+ - * /` and unary `-` act per element with the scalar operation of the element
type; and `(1,2,3)+(4,5,6) = (5,7,9)`, `(1,2,3)-(1,1,1) = (0,1,2)`,
`(2,2,2)*(3,3,3) = (6,6,6)`, `(6,6,6)/(2,3,6) = (3,2,1)` (exact quotients, on
which the integer division of C++ and of `Int` agree). -/
theorem C11_elementwise_arithmetic {d : Nat} {f : Type} [Add f] [Sub f] [Mul f] [Div f]
    [Neg f] (a b : vec d f) (i : Fin d) :
    (a + b).v i = a.v i + b.v i ∧ (a - b).v i = a.v i - b.v i ∧
    (a * b).v i = a.v i * b.v i ∧ (a / b).v i = a.v i / b.v i ∧ (-a).v i = -a.v i ∧
    ((vec.ofList [1, 2, 3] rfl : vec 3 Int) +
        (vec.ofList [4, 5, 6] rfl : vec 3 Int)).toList = [5, 7, 9] ∧
    ((vec.ofList [1, 2, 3] rfl : vec 3 Int) -
        (vec.ofList [1, 1, 1] rfl : vec 3 Int)).toList = [0, 1, 2] ∧
    ((vec.ofList [2, 2, 2] rfl : vec 3 Int) *
        (vec.ofList [3, 3, 3] rfl : vec 3 Int)).toList = [6, 6, 6] ∧
    ((vec.ofList [6, 6, 6] rfl : vec 3 Int) /
        (vec.ofList [2, 3, 6] rfl : vec 3 Int)).toList = [3, 2, 1] :=
  ⟨rfl, rfl, rfl, rfl, rfl, by decide, by decide, by decide, by decide⟩

/-- C12: for distinct vector objects `a`, `b` and each of `+= -= *= /=`: after
`a op= b` the object `a` holds `(old a) op b`, the returned reference is `a`, and
`b` is unchanged. -/
theorem C12_compound_assignment {d : Nat} {f : Type} [Add f] [Sub f] [Mul f] [Div f]
    (σ : Store d f) (a b : Nat) (hab : a ≠ b) :
    ((addAssign σ a b).1 a = σ a + σ b ∧ (addAssign σ a b).2 = a ∧
      (addAssign σ a b).1 b = σ b) ∧
    ((subAssign σ a b).1 a = σ a - σ b ∧ (subAssign σ a b).2 = a ∧
      (subAssign σ a b).1 b = σ b) ∧
    ((mulAssign σ a b).1 a = σ a * σ b ∧ (mulAssign σ a b).2 = a ∧
      (mulAssign σ a b).1 b = σ b) ∧
    ((divAssign σ a b).1 a = σ a / σ b ∧ (divAssign σ a b).2 = a ∧
      (divAssign σ a b).1 b = σ b) := by
  refine ⟨?_, ?_, ?_, ?_⟩
  · obtain ⟨h1, h2⟩ := inplace_combine_spec σ a b hab (fun p q => p + q)
    exact ⟨h1, rfl, h2 b (Ne.symm hab)⟩
  · obtain ⟨h1, h2⟩ := inplace_combine_spec σ a b hab (fun p q => p - q)
    exact ⟨h1, rfl, h2 b (Ne.symm hab)⟩
  · obtain ⟨h1, h2⟩ := inplace_combine_spec σ a b hab (fun p q => p * q)
    exact ⟨h1, rfl, h2 b (Ne.symm hab)⟩
  · obtain ⟨h1, h2⟩ := inplace_combine_spec σ a b hab (fun p q => p / q)
    exact ⟨h1, rfl, h2 b (Ne.symm hab)⟩

/-- C12 on a store with `(1,2,3)` under the name `0` and `(4,5,6)` under the
other names, for `a = 0`, `b = 1` and `+=`. -/
theorem C12_compound_assignment_witness :
    (0 : Nat) ≠ 1 ∧
    (addAssign (fun n => if n = 0 then (vec.ofList [1, 2, 3] rfl : vec 3 Int)
        else vec.ofList [4, 5, 6] rfl) 0 1).1 0
      = (vec.ofList [1, 2, 3] rfl : vec 3 Int) + (vec.ofList [4, 5, 6] rfl : vec 3 Int) :=
  ⟨by decide,
    (C12_compound_assignment (fun n => if n = 0 then (vec.ofList [1, 2, 3] rfl : vec 3 Int)
        else vec.ofList [4, 5, 6] rfl) 0 1 (by decide)).1.1⟩

/-- C14: the static assertion of `mul_mat_mat_sqr` on vectors of length `d`
holds exactly when `d` is a perfect square; for `d = s*s` it holds and
`mul_mat_mat_sqr(a,b)` is `mul_mat_mat<s,s,s>(a,b)`.  For instance `d = 8` is
rejected, and on `d = 4` the product of `(1,2,3,4)` and `(5,6,7,8)` is
`(19,22,43,50)`. -/
theorem C14_mul_mat_mat_sqr {f : Type} [Zero f] [Add f] [Mul f] (d s : Nat)
    (a b : vec (s * s) f) :
    (sqrt_size d * sqrt_size d = d ↔ ∃ k, k * k = d) ∧
    (∃ hs : sqrt_size (s * s) * sqrt_size (s * s) = s * s,
      mul_mat_mat_sqr a b hs = mul_mat_mat s s s a b) ∧
    ¬ (sqrt_size 8 * sqrt_size 8 = 8) ∧
    (mul_mat_mat_sqr (vec.ofList [1, 2, 3, 4] rfl : vec 4 Int) (vec.ofList [5, 6, 7, 8] rfl)
      (by decide)).map vec.toList = some [19, 22, 43, 50] := by
  refine ⟨sqrt_size_sq_iff d, ?_, by decide, by decide⟩
  have hs : sqrt_size (s * s) * sqrt_size (s * s) = s * s := by rw [sqrt_size_mul_self]
  refine ⟨hs, ?_⟩
  have hgen : ∀ (k : Nat) (hk : k = s) (hkk : k * k = s * s),
      (mul_mat_mat k k k (a.cast hkk.symm) (b.cast hkk.symm)).map (fun out => out.cast hkk)
        = mul_mat_mat s s s a b := by
    intro k hk hkk
    subst hk
    cases hres : mul_mat_mat k k k a b with
    | none => exact congrArg (Option.map _) hres
    | some out => exact (congrArg (Option.map _) hres).trans rfl
  exact hgen (sqrt_size (s * s)) (sqrt_size_mul_self s) hs

/-- C15 fails on the code: `mul_mat_vec` has no static assertion, so with
`d = 2` and `e = 5` the call is well-typed and runs; at `t = 4` it executes
`r.v[2] += …` on a `vec<2>`, the out-of-range access. -/
theorem C15_mul_mat_vec_unchecked :
    mul_mat_vec (vec.ofList [1, 2] rfl : vec 2 Int)
      (vec.ofList [1, 2, 3, 4, 5] rfl : vec 5 Int) = none :=
  mul_mat_vec_none (by decide) (by decide) _ _

end VecHH

namespace VecHH

open vec vecm

/-- C17: for every `d ≥ 1`, every `v` of length `d` and every associative `op`,
`reduce(op)` as implemented equals the left fold
`op(…op(op(v[0],v[1]),v[2])…,v[d-1])`; for `d = 1` it returns `v[0]`, whatever
`op` is. -/
theorem C17_reduce_assoc_is_left_fold {d : Nat} {f : Type} (hd : 0 < d) (v : vec d f)
    (op : f → f → f) (hassoc : ∀ p q s, op (op p q) s = op p (op q s)) :
    v.reduce hd op = List.foldl op (v.v ⟨0, hd⟩) v.toList.tail ∧
    ∀ (u : vec 1 f) (g : f → f → f), u.reduce Nat.one_pos g = u.v 0 := by
  refine ⟨?_, fun u g => reduce_one u Nat.one_pos g⟩
  obtain ⟨n, rfl⟩ : ∃ n, d = n + 1 := ⟨d - 1, by omega⟩
  rw [reduce_eq_foldl_aux op hassoc n v, vec.toList, List.ofFn_succ, List.tail_cons]
  rfl

/-- C17 at `v = (8,2,3)` with addition. -/
theorem C17_reduce_assoc_is_left_fold_witness :
    0 < 3 ∧ (∀ p q s : Int, p + q + s = p + (q + s)) ∧
    (vec.ofList [8, 2, 3] rfl : vec 3 Int).reduce (by decide) (fun p q => p + q)
      = List.foldl (fun p q => p + q) 8 [2, 3] :=
  ⟨by decide, add_assoc,
    (C17_reduce_assoc_is_left_fold (by decide) (vec.ofList [8, 2, 3] rfl : vec 3 Int)
      (fun p q => p + q) add_assoc).1⟩

/-- C18: for `d ≥ 1`, every `c`, `v` of length `d` and `m` of length `c * d`
over a commutative exact arithmetic, `mul_mat_vec(v, m)` has the entries of
`mul_mat_mat<c,1,d>(m, v)`, the row-major `c × d` matrix `m` times the column
vector `v`; it is not `mul_mat_mat<1,c,d>(v, m)`: on `v = (1,0)`,
`m = (1,2,3,4)` the first gives `(1,3)` and the second `(1,2)`. -/
theorem C18_mul_mat_vec_is_matrix_times_column {f : Type} [CommSemiring f] {d c : Nat}
    (hd : 0 < d) (v : vec d f) (m : vec (c * d) f) :
    (∃ p q, mul_mat_vec v m = some p ∧
      mul_mat_mat c 1 d (m.cast (Nat.mul_comm c d)) (v.cast (Nat.one_mul d).symm) = some q ∧
      p.toList = q.toList) ∧
    (mul_mat_vec (vec.ofList [1, 0] rfl : vec 2 Int)
        (vec.ofList [1, 2, 3, 4] rfl : vec (2 * 2) Int)).map vec.toList = some [1, 3] ∧
    (mul_mat_mat 1 2 2 (vec.ofList [1, 0] rfl : vec (2 * 1) Int)
        (vec.ofList [1, 2, 3, 4] rfl : vec (2 * 2) Int)).map vec.toList = some [1, 2] :=
  ⟨mul_mat_vec_as_mul_mat_mat hd v m, by decide, by decide⟩

/-- C18 at `d = 2`, `c = 2`, `v = (1,0)`, `m = (1,2,3,4)`. -/
theorem C18_mul_mat_vec_is_matrix_times_column_witness :
    0 < 2 ∧
    ∃ p q, mul_mat_vec (vec.ofList [1, 0] rfl : vec 2 Int)
        (vec.ofList [1, 2, 3, 4] rfl : vec (2 * 2) Int) = some p ∧
      mul_mat_mat 2 1 2
        ((vec.ofList [1, 2, 3, 4] rfl : vec (2 * 2) Int).cast (Nat.mul_comm 2 2))
        ((vec.ofList [1, 0] rfl : vec 2 Int).cast (Nat.one_mul 2).symm) = some q ∧
      p.toList = q.toList :=
  ⟨by decide,
    (C18_mul_mat_vec_is_matrix_times_column (by decide) (vec.ofList [1, 0] rfl : vec 2 Int)
      (vec.ofList [1, 2, 3, 4] rfl : vec (2 * 2) Int)).1⟩

/-- C19: for all shapes and integer matrices `a` (`y × z`), `b` (`z × w`),
`c` (`w × x`), the four products are computed and
`mul_mat_mat<y,x,w>(mul_mat_mat<y,w,z>(a,b), c)` equals
`mul_mat_mat<y,x,z>(a, mul_mat_mat<z,x,w>(b,c))`, also under `operator==`. -/
theorem C19_mul_mat_mat_associative (y z w x : Nat)
    (a : vec (z * y) Int) (b : vec (w * z) Int) (c : vec (x * w) Int) :
    ∃ ab bc l r, mul_mat_mat y w z a b = some ab ∧ mul_mat_mat y x w ab c = some l ∧
      mul_mat_mat z x w b c = some bc ∧ mul_mat_mat y x z a bc = some r ∧
      l = r ∧ ∀ hxy : 0 < x * y, l.eq r hxy = true := by
  obtain ⟨ab, bc, out, hab, hbc, hl, hr⟩ := mul_mat_mat_assoc y z w x a b c
  exact ⟨ab, bc, out, out, hab, hl, hbc, hr, rfl,
    fun hxy => (eq_iff out out hxy).mpr (fun _ => rfl)⟩

/-- C19 at `a = (1,2,3,4)`, `b = (5,6,7,8)`, `c = (1,0,2,1)`: both groupings
give the same 2×2 matrix, here observed through `operator==`. -/
theorem C19_mul_mat_mat_associative_witness :
    0 < 2 * 2 ∧
    ∃ l r, (mul_mat_mat 2 2 2 (vec.ofList [1, 2, 3, 4] rfl : vec (2 * 2) Int)
          (vec.ofList [5, 6, 7, 8] rfl)).bind
        (fun ab => mul_mat_mat 2 2 2 ab (vec.ofList [1, 0, 2, 1] rfl)) = some l ∧
      (mul_mat_mat 2 2 2 (vec.ofList [5, 6, 7, 8] rfl : vec (2 * 2) Int)
          (vec.ofList [1, 0, 2, 1] rfl)).bind
        (fun bc => mul_mat_mat 2 2 2 (vec.ofList [1, 2, 3, 4] rfl) bc) = some r ∧
      l.eq r (by decide) = true := by
  obtain ⟨ab, bc, l, r, hab, hl, hbc, hr, -, heq⟩ :=
    C19_mul_mat_mat_associative 2 2 2 2 (vec.ofList [1, 2, 3, 4] rfl)
      (vec.ofList [5, 6, 7, 8] rfl) (vec.ofList [1, 0, 2, 1] rfl)
  refine ⟨by decide, l, r, ?_, ?_, heq (by decide)⟩
  · rw [hab]; exact hl
  · rw [hbc]; exact hr

/-- C20: the matrix operations stay inside their arrays.  For every
`t < x*y*z` the three indices of `mul_mat_mat` are below `x*y`, `z*y` and
`x*z`, so the two reads and the `+=` succeed and the whole call returns a
result.  For `d ≥ 1`, `e` a multiple of `d` and `t < e`, `t/d < e/d` and
`t%d < d`, so `mul_mat_vec` returns a result.  When `d ≥ 1` does not divide `e`,
some `t < e` has `t/d = e/d`, outside the result, and `mul_mat_vec` runs into
the out-of-range access. -/
theorem C20_matrix_indices_in_range :
    (∀ (x y z t : Nat), t < x * y * z →
      (((t / z) % y) * x + t / (y * z) < x * y ∧ (t % z) + ((t / z) % y) * z < z * y ∧
        (t % z) * x + t / (y * z) < x * z) ∧
      ∀ (a : vec (z * y) Int) (b : vec (x * z) Int) (r : vec (x * y) Int) (p : Int),
        (a.get? ((t % z) + ((t / z) % y) * z)).isSome = true ∧
        (b.get? ((t % z) * x + t / (y * z))).isSome = true ∧
        (r.addAt (((t / z) % y) * x + t / (y * z)) p).isSome = true ∧
        (mul_mat_mat y x z a b).isSome = true) ∧
    (∀ (d e t : Nat), 0 < d → d ∣ e → t < e →
      (t / d < e / d ∧ t % d < d) ∧
      ∀ (v : vec d Int) (m : vec e Int), (mul_mat_vec v m).isSome = true) ∧
    (∀ (d e : Nat), 0 < d → ¬ d ∣ e →
      (∃ t, t < e ∧ t / d = e / d) ∧
      ∀ (v : vec d Int) (m : vec e Int), mul_mat_vec v m = none) := by
  refine ⟨?_, ?_, ?_⟩
  · intro x y z t ht
    obtain ⟨hk, hr, hc⟩ := counter_bounds ht
    have h1 : ((t / z) % y) * x + t / (y * z) < x * y := rowMajor_lt hr hc
    have h2 : (t % z) + ((t / z) % y) * z < z * y := by
      rw [Nat.add_comm]; exact rowMajor_lt hr hk
    have h3 : (t % z) * x + t / (y * z) < x * z := rowMajor_lt hk hc
    refine ⟨⟨h1, h2, h3⟩, ?_⟩
    intro a b r p
    obtain ⟨out, hout, -⟩ := mul_mat_mat_spec y x z a b
    obtain ⟨r', hr', -⟩ := addAt_of_lt r h1 p
    rw [get?_of_lt a h2, get?_of_lt b h3, hr', hout]
    exact ⟨rfl, rfl, rfl, rfl⟩
  · intro d e t hd hde ht
    refine ⟨⟨Nat.div_lt_div_of_lt_of_dvd hde ht, Nat.mod_lt t hd⟩, ?_⟩
    intro v m
    obtain ⟨out, hout, -⟩ := mul_mat_vec_spec hd hde v m
    rw [hout]
    rfl
  · intro d e hd hde
    obtain ⟨hlt, hdiv⟩ := overflow_counter hd hde
    exact ⟨⟨(e / d) * d, hlt, hdiv⟩, fun v m => mul_mat_vec_none hd hde v m⟩

/-- C20 at the shape `x = y = z = 2` with `t = 7`, at `d = 2`, `e = 6`, `t = 5`,
and at `d = 2`, `e = 5`. -/
theorem C20_matrix_indices_in_range_witness :
    (7 < 2 * 2 * 2 ∧
      ((7 / 2) % 2) * 2 + 7 / (2 * 2) < 2 * 2 ∧ (7 % 2) + ((7 / 2) % 2) * 2 < 2 * 2 ∧
      (7 % 2) * 2 + 7 / (2 * 2) < 2 * 2) ∧
    (0 < 2 ∧ 2 ∣ 6 ∧ 5 < 6 ∧ 5 / 2 < 6 / 2 ∧ 5 % 2 < 2) ∧
    (0 < 2 ∧ ¬ 2 ∣ 5 ∧ ∃ t, t < 5 ∧ t / 2 = 5 / 2) :=
  ⟨⟨by decide, (C20_matrix_indices_in_range.1 2 2 2 7 (by decide)).1⟩,
    ⟨by decide, by decide, by decide,
      (C20_matrix_indices_in_range.2.1 2 6 5 (by decide) (by decide) (by decide)).1⟩,
    ⟨by decide, by decide, (C20_matrix_indices_in_range.2.2 2 5 (by decide) (by decide)).1⟩⟩

end VecHH

/-! ## Magnitude and normalisation over the real numbers -/

namespace VecHH

namespace vecm

open vec

/-- The sum of the squares of the elements of a nonzero real vector is positive. -/
theorem sum_sq_pos {d : Nat} (v : vec d ℝ) (hv : ∃ i, v.v i ≠ 0) :
    0 < ∑ t : Fin d, v.v t * v.v t := by
  obtain ⟨i, hi⟩ := hv
  exact Finset.sum_pos' (fun t _ => mul_self_nonneg (v.v t))
    ⟨i, Finset.mem_univ i, mul_self_pos.mpr hi⟩

/-- Over the real numbers, scaling a nonzero vector by `1 / sqrt(Σ v[t]²)` gives a
vector whose squares sum to `1`. -/
theorem sum_sq_scaled {d : Nat} (v : vec d ℝ) (hv : ∃ i, v.v i ≠ 0) :
    ∑ t : Fin d, v.v t * (1 / Real.sqrt (∑ u : Fin d, v.v u * v.v u))
        * (v.v t * (1 / Real.sqrt (∑ u : Fin d, v.v u * v.v u))) = 1 := by
  have hpos := sum_sq_pos v hv
  have hsq : Real.sqrt (∑ u : Fin d, v.v u * v.v u) * Real.sqrt (∑ u : Fin d, v.v u * v.v u)
      = ∑ u : Fin d, v.v u * v.v u := Real.mul_self_sqrt hpos.le
  have hne : Real.sqrt (∑ u : Fin d, v.v u * v.v u) ≠ 0 := (Real.sqrt_pos.mpr hpos).ne'
  have hterm : ∀ t : Fin d,
      v.v t * (1 / Real.sqrt (∑ u : Fin d, v.v u * v.v u))
          * (v.v t * (1 / Real.sqrt (∑ u : Fin d, v.v u * v.v u)))
        = v.v t * v.v t * (1 / (∑ u : Fin d, v.v u * v.v u)) := by
    intro t
    rw [← hsq]
    field_simp
  rw [Finset.sum_congr rfl (fun t _ => hterm t), ← Finset.sum_mul]
  field_simp

end vecm

open vec vecm

/-- C16: in exact real arithmetic, for every `d ≥ 1` and every nonzero `v`:
`mag(v) = sqrt(dot(v,v))`, `norm(v)` is `v` multiplied elementwise by
`1 / mag(v)`, and `mag(norm(v)) = 1`; in particular `mag((3,4)) = 5` and
`norm((3,4)) = (0.6, 0.8)`. -/
theorem C16_norm_has_unit_magnitude {d : Nat} (hd : 0 < d) (v : vec d ℝ)
    (hv : ∃ i, v.v i ≠ 0) :
    mag Real.sqrt v hd = Real.sqrt (dot v v hd) ∧
    vecm.norm Real.sqrt v hd = v * (vec.broadcast (1 / mag Real.sqrt v hd) : vec d ℝ) ∧
    (∀ i : Fin d, (vecm.norm Real.sqrt v hd).v i = v.v i * (1 / mag Real.sqrt v hd)) ∧
    mag Real.sqrt (vecm.norm Real.sqrt v hd) hd = 1 ∧
    mag Real.sqrt (vec.ofList [3, 4] rfl : vec 2 ℝ) (by decide) = 5 ∧
    (vecm.norm Real.sqrt (vec.ofList [3, 4] rfl : vec 2 ℝ) (by decide)).toList
      = [0.6, 0.8] := by
  have h25 : Real.sqrt ((3 : ℝ) * 3 + 4 * 4) = 5 := by
    rw [show (3 : ℝ) * 3 + 4 * 4 = 5 ^ 2 by norm_num]
    exact Real.sqrt_sq (by norm_num)
  refine ⟨rfl, rfl, fun _ => rfl, ?_, h25, ?_⟩
  · unfold mag
    rw [reduce_add_eq_sum]
    have hsum : ∑ t : Fin d, ((vecm.norm Real.sqrt v hd) * (vecm.norm Real.sqrt v hd)).v t
        = 1 := by
      unfold vecm.norm
      rw [reduce_add_eq_sum]
      exact sum_sq_scaled v hv
    rw [hsum, Real.sqrt_one]
  · show [(3 : ℝ) * (1 / Real.sqrt ((3 : ℝ) * 3 + 4 * 4)),
        4 * (1 / Real.sqrt ((3 : ℝ) * 3 + 4 * 4))] = [0.6, 0.8]
    rw [h25]
    norm_num

/-- C16 at `v = (3,4)`: a nonzero vector whose normalisation has magnitude `1`. -/
theorem C16_norm_has_unit_magnitude_witness :
    0 < 2 ∧ (∃ i, (vec.ofList [3, 4] rfl : vec 2 ℝ).v i ≠ 0) ∧
    mag Real.sqrt (vecm.norm Real.sqrt (vec.ofList [3, 4] rfl : vec 2 ℝ) (by decide))
      (by decide) = 1 :=
  ⟨by decide, ⟨0, by show (3 : ℝ) ≠ 0; norm_num⟩,
    (C16_norm_has_unit_magnitude (by decide) (vec.ofList [3, 4] rfl : vec 2 ℝ)
      ⟨0, by show (3 : ℝ) ≠ 0; norm_num⟩).2.2.2.1⟩

end VecHH
